import Mathlib

/-!
Verification of the EDS-TeVa Probe → Model fitting pipeline.

The repository ships the algorithmic contracts in its documentation
(docs/index.md, docs/components/model.md, the probe documentation) while the
Python implementation files themselves are not part of the source snapshot;
the definitions below embed those documented algorithms faithfully, with the
documentation formulas as the authority.  Months are natural numbers (month
buckets), counts are naturals and completeness values are rationals.
-/

namespace Edsteva

abbrev Month := Nat

/-- Monthly event counts of one (entity, labels) group: `(month, raw count)`
rows, as produced by the per-month group-by of `compute_process`. -/
abbrev CountSeries := List (Month × Nat)

/-- `n_max = max_t n(t)` over the entire observed period of the group
(docs/index.md, `per_visit_default`: `n_max = max_t(n_visit(t))`). -/
def nMax (counts : CountSeries) : Nat :=
  (counts.map Prod.snd).foldr max 0

/-- Pandas-style linearly interpolated empirical quantile of a value list:
sort the values, take `h = x * (n - 1)`, and interpolate between the floor
and ceiling ranks.  This is the default interpolation of the pandas
`quantile` API used by the repository's toolchain. -/
def quantileInterp (x : ℚ) (vs : List ℚ) : ℚ :=
  let sorted := vs.insertionSort (· ≤ ·)
  if sorted.isEmpty then 0
  else
    let h := x * ((sorted.length - 1 : Nat) : ℚ)
    let i := (⌊h⌋).toNat
    let vi := sorted.getD i 0
    vi + (h - (i : ℚ)) * (sorted.getD (i + 1) vi - vi)

/-- per-entity-normalized completeness with the max normalizer:
`c(t) = n(t) / n_max`, and `c(t) = 0` for every month of the group whenever
`n_max = 0` (docs/index.md lines 167-175 and 446-453). -/
def completenessPerEntity (counts : CountSeries) : List (Month × ℚ) :=
  let m := nMax counts
  counts.map fun p => (p.1, if m = 0 then 0 else (p.2 : ℚ) / (m : ℚ))

/-- Variant documented for the early `VisitProbe` (probe documentation,
`c_visit(t) = n_visit(t) / n_99`): normalize by the 99th percentile of the
monthly count series, with the same zero-denominator convention. -/
def completenessPer99 (counts : CountSeries) : List (Month × ℚ) :=
  let q := quantileInterp (99 / 100) (counts.map fun p => (p.2 : ℚ))
  counts.map fun p => (p.1, if q = 0 then 0 else (p.2 : ℚ) / q)

/-- A raw visit row for per-related-event algorithms: its month bucket and
whether the visit has at least one linked secondary event (note, condition
code or biological measurement). -/
structure VisitRec where
  month : Month
  hasEvent : Bool
deriving DecidableEq, Repr

/-- `n_visit(t)`: number of visits in month `t`. -/
def nVisitAt (rs : List VisitRec) (t : Month) : Nat :=
  (rs.filter fun r => r.month == t).length

/-- `n_with(t)`: number of visits in month `t` having a linked event. -/
def nWithAt (rs : List VisitRec) (t : Month) : Nat :=
  ((rs.filter fun r => r.month == t).filter fun r => r.hasEvent).length

/-- per-related-event completeness `c(t) = n_with(t) / n_visit(t)`, defined as
`0` when `n_visit(t) = 0` (docs/index.md, `per_visit_default` of the note,
condition and biology probes). -/
def completenessPerRelated (rs : List VisitRec) (t : Month) : ℚ :=
  let nv := nVisitAt rs t
  if nv = 0 then 0 else (nWithAt rs t : ℚ) / (nv : ℚ)

lemma le_nMax_of_mem {counts : CountSeries} {p : Month × Nat} (hp : p ∈ counts) :
    p.2 ≤ nMax counts := by
  induction counts with
  | nil => cases hp
  | cons q l ih =>
    rcases List.mem_cons.mp hp with h | h
    · subst h
      exact le_max_left _ _
    · exact le_trans (ih h) (le_max_right _ _)

lemma nWithAt_le_nVisitAt (rs : List VisitRec) (t : Month) :
    nWithAt rs t ≤ nVisitAt rs t :=
  List.length_filter_le _ _

/-- C1 (amended): under the per-entity-normalized algorithm as implemented
(plain-max normalizer) and under the per-related-event algorithm, every
completeness value lies in the closed interval `[0, 1]`. -/
theorem completeness_ratio_mem_unit :
    (∀ (counts : CountSeries) (p : Month × ℚ), p ∈ completenessPerEntity counts →
      0 ≤ p.2 ∧ p.2 ≤ 1) ∧
    ∀ (rs : List VisitRec) (t : Month),
      0 ≤ completenessPerRelated rs t ∧ completenessPerRelated rs t ≤ 1 := by
  constructor
  · intro counts p hp
    unfold completenessPerEntity at hp
    rcases List.mem_map.mp hp with ⟨q, hq, rfl⟩
    simp only
    by_cases hm : nMax counts = 0
    · simp [hm]
    · have hmpos : 0 < (nMax counts : ℚ) := by
        exact_mod_cast Nat.pos_of_ne_zero hm
      constructor
      · simp only [if_neg hm]
        positivity
      · simp only [if_neg hm]
        rw [div_le_one hmpos]
        exact_mod_cast le_nMax_of_mem hq
  · intro rs t
    unfold completenessPerRelated
    by_cases hv : nVisitAt rs t = 0
    · simp [hv]
    · have hvpos : 0 < (nVisitAt rs t : ℚ) := by
        exact_mod_cast Nat.pos_of_ne_zero hv
      constructor
      · simp only [if_neg hv]
        positivity
      · simp only [if_neg hv]
        rw [div_le_one hvpos]
        exact_mod_cast nWithAt_le_nVisitAt rs t

/-- C1 witness: the bounds evaluated on a concrete two-month series and a
concrete visit list. -/
theorem completeness_ratio_mem_unit_witness :
    (0 ≤ ((0 : Month), (1 / 2 : ℚ)).2 ∧ ((0 : Month), (1 / 2 : ℚ)).2 ≤ 1) ∧
    (0 ≤ completenessPerRelated [⟨0, true⟩, ⟨0, false⟩] 0 ∧
      completenessPerRelated [⟨0, true⟩, ⟨0, false⟩] 0 ≤ 1) :=
  ⟨completeness_ratio_mem_unit.1 [(0, 1), (1, 2)] (0, 1 / 2)
      (by norm_num [completenessPerEntity, nMax, List.mem_cons]),
   completeness_ratio_mem_unit.2 [⟨0, true⟩, ⟨0, false⟩] 0⟩

/-- C1 counterexample: normalizing by the (linearly interpolated) 99th
percentile of the monthly counts, as the early probe documentation states,
produces a completeness value strictly greater than 1: on the series with
counts 0 and 10, the 99th percentile is 99/10 and the ratio of the top month
is 100/99 > 1. -/
theorem completeness_per99_exceeds_one :
    completenessPer99 [(0, 0), (1, 10)] = [(0, 0), (1, 100 / 99)] ∧
    (1 : ℚ) < 100 / 99 := by
  constructor
  · norm_num [completenessPer99, quantileInterp, List.insertionSort,
      List.orderedInsert]
  · norm_num

/-- C2: whenever the normalizing denominator of a group is zero — the max of
the monthly counts for per-entity-normalized algorithms, or the monthly visit
count for per-related-event algorithms — the completeness is defined as
exactly 0 (a total definition: no division error, no NaN, no missing value). -/
theorem zero_denominator_gives_zero :
    (∀ counts : CountSeries, nMax counts = 0 →
      ∀ p ∈ completenessPerEntity counts, p.2 = 0) ∧
    ∀ (rs : List VisitRec) (t : Month), nVisitAt rs t = 0 →
      completenessPerRelated rs t = 0 := by
  constructor
  · intro counts hm p hp
    unfold completenessPerEntity at hp
    rcases List.mem_map.mp hp with ⟨q, _, rfl⟩
    simp [hm]
  · intro rs t hv
    unfold completenessPerRelated
    simp [hv]

/-- C2 witness: the zero-denominator convention evaluated on a group whose
only monthly count is 0 and on a month with no visits. -/
theorem zero_denominator_gives_zero_witness :
    ((0 : Month), (0 : ℚ)).2 = 0 ∧ completenessPerRelated [⟨1, true⟩] 0 = 0 :=
  ⟨zero_denominator_gives_zero.1 [(0, 0)] (by decide) (0, 0)
      (by norm_num [completenessPerEntity, nMax, List.mem_cons]),
   zero_denominator_gives_zero.2 [⟨1, true⟩] 0 (by decide)⟩

/-! ### Step-function model (docs/components/model.md) -/

/-- A completeness series of one key: `(month, completeness)` observations. -/
abbrev CSeries := List (Month × ℚ)

/-- The step function `f_{t0,c0}(t) = c0 · 1_{t ≥ t0}(t)`. -/
def stepF (t0 : Month) (c0 : ℚ) (t : Month) : ℚ :=
  if t0 ≤ t then c0 else 0

/-- The month column of a series. -/
def months (s : CSeries) : List Month := s.map Prod.fst

/-- `t_max`: last observed month. -/
def tMax (s : CSeries) : Month := (months s).foldr max 0

/-- `t_min`: first observed month. -/
def tMin (s : CSeries) : Month :=
  match months s with
  | [] => 0
  | m :: ms => ms.foldl min m

/-- Conditional optimum of `c0` given `t0` under the `l2` loss: the mean of
the observed completeness restricted to `t ≥ t0` (the dependency relation
between `c0` and `t0` noted in the loss-minimization documentation). -/
def meanAfter (s : CSeries) (t0 : Month) : ℚ :=
  ((s.filter fun p => decide (t0 ≤ p.1)).map Prod.snd).sum /
    ((s.filter fun p => decide (t0 ≤ p.1)).length : ℚ)

/-- The documented loss `L(t0, c0) = Σ_t |c(t) − f_{t0,c0}(t)|² / (t_max − t_min)`
evaluated at a candidate `t0` with its optimal `c0 = meanAfter s t0`. -/
def lossAt (s : CSeries) (t0 : Month) : ℚ :=
  (s.map fun p => (p.2 - stepF t0 (meanAfter s t0) p.1) ^ 2).sum /
    ((tMax s - tMin s : Nat) : ℚ)

/-- Discrete search keeping the best candidate seen so far; with candidates
in chronological order and a strict comparison, ties keep the earliest. -/
def runBest (g : Month → ℚ) (l : List Month) (b : Month) : Month :=
  l.foldl (fun b' t => if g t < g b' then t else b') b

/-- The candidate boundary month of the series minimizing the loss. -/
def argminLoss (s : CSeries) : Month :=
  match months s with
  | [] => 0
  | m :: ms => runBest (lossAt s) ms m

/-- Loss-minimization fitting of the step function: the minimizing `t0`
together with its closed-form optimal `c0`. -/
def stepFitLoss (s : CSeries) : Month × ℚ :=
  (argminLoss s, meanAfter s (argminLoss s))

/-- Modelled from the spec: the repository documents the error formula
`error = Σ_{t0 ≤ t ≤ tmax} ε(t)² / (tmax − t0)` but its metric implementation
file is absent; the zero-length-region convention (error surfaced as a
missing value, not zero and not an exception) follows the specification of
the numeric edge-case policy. -/
def errorMetric (s : CSeries) (t0 : Month) (c0 : ℚ) : Option ℚ :=
  if tMax s ≤ t0 then none
  else
    some
      (((s.filter fun p => decide (t0 ≤ p.1)).map
          fun p => (stepF t0 c0 p.1 - p.2) ^ 2).sum /
        ((tMax s - t0 : Nat) : ℚ))

lemma runBest_mem (g : Month → ℚ) (l : List Month) (b : Month) :
    runBest g l b = b ∨ runBest g l b ∈ l := by
  induction l generalizing b with
  | nil => exact Or.inl rfl
  | cons t ts ih =>
    have hfold : runBest g (t :: ts) b = runBest g ts (if g t < g b then t else b) := rfl
    rw [hfold]
    rcases ih (if g t < g b then t else b) with h | h
    · rw [h]
      by_cases hlt : g t < g b
      · rw [if_pos hlt]
        exact Or.inr (List.mem_cons_self t ts)
      · rw [if_neg hlt]
        exact Or.inl rfl
    · exact Or.inr (List.mem_cons_of_mem t h)

lemma runBest_le (g : Month → ℚ) (l : List Month) (b : Month) :
    g (runBest g l b) ≤ g b ∧ ∀ t ∈ l, g (runBest g l b) ≤ g t := by
  induction l generalizing b with
  | nil => exact ⟨le_refl _, fun t ht => absurd ht (List.not_mem_nil t)⟩
  | cons t ts ih =>
    have hfold : runBest g (t :: ts) b = runBest g ts (if g t < g b then t else b) := rfl
    have hb : g (if g t < g b then t else b) ≤ g b := by
      by_cases h : g t < g b
      · rw [if_pos h]; exact le_of_lt h
      · rw [if_neg h]
    have ht : g (if g t < g b then t else b) ≤ g t := by
      by_cases h : g t < g b
      · rw [if_pos h]
      · rw [if_neg h]; exact not_lt.mp h
    have hih := ih (if g t < g b then t else b)
    rw [hfold]
    refine ⟨le_trans hih.1 hb, ?_⟩
    intro u hu
    rcases List.mem_cons.mp hu with rfl | hu'
    · exact le_trans hih.1 ht
    · exact hih.2 u hu'

lemma runBest_eq_unique (g : Month → ℚ) (l : List Month) (b : Month) (m : Month)
    (hm : m = b ∨ m ∈ l) (hzero : g m = 0)
    (huniq : ∀ t, (t = b ∨ t ∈ l) → t ≠ m → 0 < g t) :
    runBest g l b = m := by
  by_contra hne
  have hpos : 0 < g (runBest g l b) := huniq _ (runBest_mem g l b) hne
  have hle : g (runBest g l b) ≤ g m := by
    rcases hm with heq | hm'
    · rw [heq]
      exact (runBest_le g l b).1
    · exact (runBest_le g l b).2 m hm'
  rw [hzero] at hle
  linarith

lemma sum_pos_of_mem {l : List ℚ} (hnn : ∀ x ∈ l, 0 ≤ x) {y : ℚ}
    (hy : y ∈ l) (hpos : 0 < y) : 0 < l.sum := by
  induction l with
  | nil => cases hy
  | cons a l ih =>
    rw [List.sum_cons]
    rcases List.mem_cons.mp hy with rfl | hy'
    · have h0 : 0 ≤ l.sum :=
        List.sum_nonneg fun x hx => hnn x (List.mem_cons_of_mem _ hx)
      linarith
    · have ha : 0 ≤ a := hnn a (List.mem_cons_self _ _)
      have := ih (fun x hx => hnn x (List.mem_cons_of_mem _ hx)) hy'
      linarith

lemma sum_const_val {l : List ℚ} {k : ℚ} (h : ∀ x ∈ l, x = k) :
    l.sum = k * l.length := by
  induction l with
  | nil => simp
  | cons a l ih =>
    rw [List.sum_cons, List.length_cons,
      ih fun x hx => h x (List.mem_cons_of_mem _ hx), h a (List.mem_cons_self _ _)]
    push_cast
    ring

lemma le_foldr_max : ∀ {l : List Nat} {a : Nat}, a ∈ l → a ≤ l.foldr max 0 := by
  intro l
  induction l with
  | nil => intro a h; cases h
  | cons m ms ih =>
    intro a h
    rcases List.mem_cons.mp h with rfl | h'
    · exact le_max_left _ _
    · exact le_trans (ih h') (le_max_right _ _)

lemma foldr_max_mem : ∀ {l : List Nat}, l ≠ [] → l.foldr max 0 ∈ l := by
  intro l
  induction l with
  | nil => intro h; exact absurd rfl h
  | cons m ms ih =>
    intro _
    show max m (ms.foldr max 0) ∈ m :: ms
    by_cases hms : ms = []
    · subst hms
      simp
    · rcases max_choice m (ms.foldr max 0) with heq | heq
      · rw [heq]
        exact List.mem_cons_self _ _
      · rw [heq]
        exact List.mem_cons_of_mem _ (ih hms)

lemma foldl_min_le : ∀ {l : List Nat} {b x : Nat}, x = b ∨ x ∈ l → l.foldl min b ≤ x := by
  intro l
  induction l with
  | nil =>
    intro b x h
    rcases h with rfl | h
    · exact le_refl _
    · cases h
  | cons t ts ih =>
    intro b x h
    show ts.foldl min (min b t) ≤ x
    rcases h with rfl | h
    · exact le_trans (ih (Or.inl rfl)) (min_le_left _ _)
    · rcases List.mem_cons.mp h with rfl | h'
      · exact le_trans (ih (Or.inl rfl)) (min_le_right _ _)
      · exact ih (Or.inr h')

lemma le_tMax_of_mem {s : CSeries} {a : Month} (h : a ∈ months s) :
    a ≤ tMax s :=
  le_foldr_max h

lemma tMax_mem {s : CSeries} (h : months s ≠ []) : tMax s ∈ months s :=
  foldr_max_mem h

lemma meanAfter_perfect {s : CSeries} {M : Month} {k : ℚ}
    (hM : M ∈ months s)
    (hstep : ∀ p ∈ s, p.2 = if M ≤ p.1 then k else 0) :
    meanAfter s M = k := by
  unfold meanAfter
  have hvals : ∀ x ∈ (s.filter fun p => decide (M ≤ p.1)).map Prod.snd, x = k := by
    intro x hx
    rcases List.mem_map.mp hx with ⟨p, hp, rfl⟩
    have hps := List.mem_filter.mp hp
    have hMp : M ≤ p.1 := by simpa using hps.2
    rw [hstep p hps.1, if_pos hMp]
  have hM' : M ∈ s.map Prod.fst := hM
  rcases List.mem_map.mp hM' with ⟨p, hp, hp1⟩
  have hpr : p ∈ s.filter fun q => decide (M ≤ q.1) :=
    List.mem_filter.mpr ⟨hp, by simp [hp1]⟩
  have hlen : ((s.filter fun q => decide (M ≤ q.1)).length : ℚ) ≠ 0 := by
    have : 0 < (s.filter fun q => decide (M ≤ q.1)).length :=
      List.length_pos.mpr (List.ne_nil_of_mem hpr)
    exact_mod_cast Nat.pos_iff_ne_zero.mp this
  rw [sum_const_val hvals, List.length_map]
  exact mul_div_cancel_right₀ k hlen

lemma lossAt_perfect_zero {s : CSeries} {M : Month} {k : ℚ}
    (hM : M ∈ months s)
    (hstep : ∀ p ∈ s, p.2 = if M ≤ p.1 then k else 0) :
    lossAt s M = 0 := by
  unfold lossAt
  have h0 : (s.map fun p => (p.2 - stepF M (meanAfter s M) p.1) ^ 2).sum = 0 := by
    apply List.sum_eq_zero
    intro x hx
    rcases List.mem_map.mp hx with ⟨p, hp, rfl⟩
    rw [meanAfter_perfect hM hstep, hstep p hp]
    unfold stepF
    by_cases hle : M ≤ p.1
    · rw [if_pos hle]
      ring
    · rw [if_neg hle]
      ring
  rw [h0, zero_div]

lemma lossAt_nonneg (s : CSeries) (t : Month) : 0 ≤ lossAt s t := by
  unfold lossAt
  apply div_nonneg _ (by positivity)
  apply List.sum_nonneg
  intro x hx
  rcases List.mem_map.mp hx with ⟨p, _, rfl⟩
  exact sq_nonneg _

lemma lossAt_pos {s : CSeries} {M t : Month} {k : ℚ} (hk : 0 < k)
    (hstep : ∀ p ∈ s, p.2 = if M ≤ p.1 then k else 0)
    (hM : M ∈ months s) (ht : t ∈ months s) (htne : t ≠ M)
    (hD : 0 < ((tMax s - tMin s : Nat) : ℚ)) :
    0 < lossAt s t := by
  unfold lossAt
  apply div_pos _ hD
  have hM' : M ∈ s.map Prod.fst := hM
  rcases List.mem_map.mp hM' with ⟨pM, hpM, hpM1⟩
  have hpMval : pM.2 = k := by
    have h := hstep pM hpM
    rw [hpM1, if_pos (le_refl M)] at h
    exact h
  have hnn : ∀ x ∈ s.map fun p => (p.2 - stepF t (meanAfter s t) p.1) ^ 2, 0 ≤ x := by
    intro x hx
    rcases List.mem_map.mp hx with ⟨p, _, rfl⟩
    exact sq_nonneg _
  rcases lt_or_gt_of_ne htne with htM | hMt
  · -- t strictly before the step month M
    by_cases hc : meanAfter s t = 0
    · -- the fitted plateau is 0, so the residual at the month M is k
      apply sum_pos_of_mem hnn (List.mem_map.mpr ⟨pM, hpM, rfl⟩)
      have hstepv : stepF t (meanAfter s t) pM.1 = 0 := by
        unfold stepF
        rw [hpM1, if_pos (le_of_lt htM), hc]
      rw [hstepv, hpMval, sub_zero]
      exact sq_pos_iff.mpr (ne_of_gt hk)
    · -- the fitted plateau is nonzero, so the residual at the month t is nonzero
      have hzero : ∀ p ∈ s, p.1 = t → p.2 = 0 := by
        intro p hp hp1
        rw [hstep p hp, hp1, if_neg (not_le.mpr htM)]
      have ht' : t ∈ s.map Prod.fst := ht
      rcases List.mem_map.mp ht' with ⟨pt, hpt, hpt1⟩
      apply sum_pos_of_mem hnn (List.mem_map.mpr ⟨pt, hpt, rfl⟩)
      have hstepv : stepF t (meanAfter s t) pt.1 = meanAfter s t := by
        unfold stepF
        rw [hpt1, if_pos (le_refl t)]
      rw [hstepv, hzero pt hpt hpt1, zero_sub, neg_sq]
      exact sq_pos_iff.mpr hc
  · -- t strictly after M: the month M lies outside the indicator region
    apply sum_pos_of_mem hnn (List.mem_map.mpr ⟨pM, hpM, rfl⟩)
    have hstepv : stepF t (meanAfter s t) pM.1 = 0 := by
      unfold stepF
      rw [hpM1, if_neg (not_le.mpr hMt)]
    rw [hstepv, hpMval, sub_zero]
    exact sq_pos_iff.mpr (ne_of_gt hk)

lemma tMin_le_of_mem {s : CSeries} {a : Month} (h : a ∈ months s) :
    tMin s ≤ a := by
  unfold tMin
  rcases hm : months s with _ | ⟨m, ms⟩
  · rw [hm] at h
    cases h
  · rw [hm] at h
    show List.foldl min m ms ≤ a
    rcases List.mem_cons.mp h with rfl | h'
    · exact foldl_min_le (Or.inl rfl)
    · exact foldl_min_le (Or.inr h')

/-- C3 (amended): on a perfect step series — completeness 0 strictly before an
observed month `M` and a constant `k > 0` at and after `M` — loss minimization
with the `l2` loss recovers `t0 = M` and `c0 = k` exactly, and whenever `M` is
strictly before the last observed month the error metric is exactly 0. -/
theorem stepfit_recovers_perfect_step (s : CSeries) (M : Month) (k : ℚ)
    (hM : M ∈ months s) (hk : 0 < k)
    (hstep : ∀ p ∈ s, p.2 = if M ≤ p.1 then k else 0)
    (hlt : M < tMax s) :
    stepFitLoss s = (M, k) ∧ errorMetric s M k = some 0 := by
  have hne : months s ≠ [] := List.ne_nil_of_mem hM
  have hD : 0 < ((tMax s - tMin s : Nat) : ℚ) := by
    have h1 : tMin s ≤ M := tMin_le_of_mem hM
    have h2 : tMin s < tMax s := lt_of_le_of_lt h1 hlt
    exact_mod_cast Nat.sub_pos_of_lt h2
  have hargmin : argminLoss s = M := by
    unfold argminLoss
    rcases hms : months s with _ | ⟨m, ms⟩
    · exact absurd hms hne
    · show runBest (lossAt s) ms m = M
      apply runBest_eq_unique
      · have hMms : M ∈ m :: ms := hms ▸ hM
        rcases List.mem_cons.mp hMms with h | h
        · exact Or.inl h
        · exact Or.inr h
      · exact lossAt_perfect_zero hM hstep
      · intro t htl htne
        have htmem : t ∈ months s := by
          rw [hms]
          rcases htl with rfl | h
          · exact List.mem_cons_self _ _
          · exact List.mem_cons_of_mem _ h
        exact lossAt_pos hk hstep hM htmem htne hD
  constructor
  · unfold stepFitLoss
    rw [hargmin, meanAfter_perfect hM hstep]
  · unfold errorMetric
    rw [if_neg (not_le.mpr hlt)]
    have h0 : ((s.filter fun p => decide (M ≤ p.1)).map
        fun p => (stepF M k p.1 - p.2) ^ 2).sum = 0 := by
      apply List.sum_eq_zero
      intro x hx
      rcases List.mem_map.mp hx with ⟨p, hp, rfl⟩
      have hps := List.mem_filter.mp hp
      have hMp : M ≤ p.1 := by simpa using hps.2
      rw [hstep p hps.1, if_pos hMp]
      unfold stepF
      rw [if_pos hMp]
      ring
    rw [h0, zero_div]

/-- C3 witness: the amended theorem evaluated on the concrete perfect step
series `[(0, 0), (1, 1), (2, 1)]` with `M = 1` and `k = 1`. -/
theorem stepfit_recovers_perfect_step_witness :
    stepFitLoss [(0, 0), (1, 1), (2, 1)] = (1, 1) ∧
    errorMetric [(0, 0), (1, 1), (2, 1)] 1 1 = some 0 :=
  stepfit_recovers_perfect_step [(0, 0), (1, 1), (2, 1)] 1 1
    (by decide) (by norm_num) (by decide) (by decide)

/-- C3 counterexample: the series `[(0, 0), (1, 1)]` is a perfect step with
step month `M = 1` (the last observed month) and plateau `k = 1`; the fit
still recovers `t0 = 1 = M` and `c0 = 1 = k`, but the error metric is the
missing value (zero-length region), not 0 — so the claim's "error equals 0"
fails. -/
theorem stepfit_error_missing_at_last_month :
    stepFitLoss [(0, 0), (1, 1)] = (1, 1) ∧
    errorMetric [(0, 0), (1, 1)] 1 1 = none ∧
    errorMetric [(0, 0), (1, 1)] 1 1 ≠ some 0 := by
  have hnone : errorMetric [(0, 0), (1, 1)] 1 1 = none := by
    norm_num [errorMetric, tMax, months]
  refine ⟨?_, hnone, ?_⟩
  · norm_num [stepFitLoss, argminLoss, months, runBest, lossAt, meanAfter,
      stepF, tMax, tMin, List.filter, List.foldl]
  · rw [hnone]
    exact fun h => Option.noConfusion h

/-! ### Quantile fitting algorithm -/

/-- `c0` of the quantile algorithm: the `x`-th quantile of the observed
completeness values of the key (default `x = 0.8`). -/
def quantileC0 (x : ℚ) (s : CSeries) : ℚ :=
  quantileInterp x (s.map Prod.snd)

/-- Chronologically minimal month of a list (`date.min()`), `none` on an
empty list. -/
def minMonth? (l : List Month) : Option Month :=
  match l with
  | [] => none
  | m :: ms => some (ms.foldl min m)

/-- Quantile fitting: `c0` is the `x`-th quantile of `c(t)` and `t0` is the
first month at which `c(t)` reaches `c0`, undefined when no month qualifies. -/
def quantileFit (x : ℚ) (s : CSeries) : Option Month × ℚ :=
  (minMonth? ((s.filter fun p => decide (quantileC0 x s ≤ p.2)).map Prod.fst),
    quantileC0 x s)

lemma foldl_min_mem : ∀ {l : List Nat} {b : Nat},
    l.foldl min b = b ∨ l.foldl min b ∈ l := by
  intro l
  induction l with
  | nil => intro b; exact Or.inl rfl
  | cons t ts ih =>
    intro b
    have hfold : (t :: ts).foldl min b = ts.foldl min (min b t) := rfl
    rw [hfold]
    rcases @ih (min b t) with h | h
    · rw [h]
      rcases min_choice b t with hbt | hbt
      · rw [hbt]
        exact Or.inl rfl
      · rw [hbt]
        exact Or.inr (List.mem_cons_self t ts)
    · exact Or.inr (List.mem_cons_of_mem t h)

lemma minMonth?_eq_some {l : List Month} {m : Month} (h : minMonth? l = some m) :
    m ∈ l ∧ ∀ t ∈ l, m ≤ t := by
  rcases l with _ | ⟨a, as⟩
  · exact Option.noConfusion h
  · have hm : as.foldl min a = m := Option.some_inj.mp h
    constructor
    · rcases @foldl_min_mem as a with h' | h'
      · rw [hm] at h'
        exact h' ▸ List.mem_cons_self a as
      · rw [hm] at h'
        exact List.mem_cons_of_mem a h'
    · intro t ht
      rw [← hm]
      rcases List.mem_cons.mp ht with rfl | ht'
      · exact foldl_min_le (Or.inl rfl)
      · exact foldl_min_le (Or.inr ht')

lemma minMonth?_eq_none {l : List Month} (h : minMonth? l = none) : l = [] := by
  rcases l with _ | ⟨a, as⟩
  · rfl
  · exact Option.noConfusion h

/-- C4 (amended): the quantile algorithm sets `c0` to the (linearly
interpolated) `x`-th quantile of the observed values; when some month
qualifies, `t0` is the chronologically first month whose observed
completeness is at least `c0`, and when no month qualifies `t0` is
undefined.  (This is weaker than "t0 = the month where the series first
reaches exactly 0.8": the interpolated quantile can exceed 0.8.) -/
theorem quantile_fit_first_reach (x : ℚ) (s : CSeries) :
    (∀ m, (quantileFit x s).1 = some m →
      (∃ p ∈ s, p.1 = m ∧ quantileC0 x s ≤ p.2) ∧
        ∀ p ∈ s, quantileC0 x s ≤ p.2 → m ≤ p.1) ∧
    ((quantileFit x s).1 = none → ∀ p ∈ s, p.2 < quantileC0 x s) ∧
    (quantileFit x s).2 = quantileC0 x s := by
  refine ⟨?_, ?_, rfl⟩
  · intro m hm
    have h := minMonth?_eq_some hm
    constructor
    · rcases List.mem_map.mp h.1 with ⟨p, hp, hp1⟩
      have hps := List.mem_filter.mp hp
      exact ⟨p, hps.1, hp1, by simpa using hps.2⟩
    · intro p hp hq
      exact h.2 p.1 (List.mem_map.mpr
        ⟨p, List.mem_filter.mpr ⟨hp, by simpa using hq⟩, rfl⟩)
  · intro hnone p hp
    have hl := minMonth?_eq_none hnone
    have hfil : (s.filter fun p => decide (quantileC0 x s ≤ p.2)) = [] :=
      List.map_eq_nil_iff.mp hl
    have := List.filter_eq_nil_iff.mp hfil p hp
    simpa using this

/-- C4 witness: on the increasing six-month series whose interpolated
0.8-quantile is exactly 0.8 (reached at month 4), the fitted `t0` is month 4:
some month of the series is month 4 at quantile level, and the qualifying
month 5 is not earlier than 4. -/
theorem quantile_fit_first_reach_witness :
    (∃ p ∈ ([(0, 2/5), (1, 1/2), (2, 3/5), (3, 7/10), (4, 4/5), (5, 9/10)] : CSeries),
      p.1 = 4 ∧
        quantileC0 (4/5) [(0, 2/5), (1, 1/2), (2, 3/5), (3, 7/10), (4, 4/5), (5, 9/10)] ≤ p.2) ∧
    (4 : Month) ≤ (((5 : Month), (9/10 : ℚ)) : Month × ℚ).1 :=
  have h := (quantile_fit_first_reach (4/5)
      [(0, 2/5), (1, 1/2), (2, 3/5), (3, 7/10), (4, 4/5), (5, 9/10)]).1 4
    (by
      have h4 : Int.toNat 4 = 4 := rfl
      norm_num [quantileFit, quantileC0, quantileInterp, minMonth?, h4,
        List.insertionSort, List.orderedInsert, List.filter, List.getD])
  ⟨h.1, h.2 (5, 9/10) (by norm_num [List.mem_cons])
    (by
      have h4 : Int.toNat 4 = 4 := rfl
      norm_num [quantileC0, quantileInterp, h4,
        List.insertionSort, List.orderedInsert, List.getD])⟩

/-- C4 counterexample: the series `[(0, 0.8), (1, 1)]` increases
monotonically, reaches exactly 0.8 at month 0 and stays at or above 0.8
afterwards; with the default quantile 0.8 the interpolated quantile is
24/25 > 0.8, so the fitted `t0` is month 1, not the claimed month 0. -/
theorem quantile_t0_after_reach_month :
    quantileFit (4/5) [(0, 4/5), (1, 1)] = (some 1, 24/25) ∧
    (quantileFit (4/5) [(0, 4/5), (1, 1)]).1 ≠ some 0 := by
  have h : quantileFit (4/5) [(0, 4/5), (1, 1)] = (some 1, 24/25) := by
    have h0 : Int.toNat 0 = 0 := rfl
    norm_num [quantileFit, quantileC0, quantileInterp, minMonth?, h0,
      List.insertionSort, List.orderedInsert, List.filter, List.getD]
  refine ⟨h, ?_⟩
  rw [h]
  simp

/-- The rectangle function `f_{t0,c0,t1}(t) = c0 · 1_{t0 ≤ t ≤ t1}(t)`
(docs/components/model.md, `RectangleFunction`). -/
def rectF (t0 : Month) (c0 : ℚ) (t1 : Month) (t : Month) : ℚ :=
  if t0 ≤ t ∧ t ≤ t1 then c0 else 0

/-- Modelled from the spec: the rectangle-function error metric
`error = Σ_{t0 ≤ t ≤ t1} ε(t)² / (t1 − t0)` documented for
`RectangleFunction`; the metric implementation file is absent.  As for the
step function, a region `[t0, t1]` of zero length (`t1 ≤ t0`; fitted
coefficients always satisfy `t0 ≤ t1`) yields the missing value per the
specification's numeric edge-case policy. -/
def errorMetricRect (s : CSeries) (t0 : Month) (c0 : ℚ) (t1 : Month) : Option ℚ :=
  if t1 ≤ t0 then none
  else
    some
      (((s.filter fun p => decide (t0 ≤ p.1 ∧ p.1 ≤ t1)).map
          fun p => (rectF t0 c0 t1 p.1 - p.2) ^ 2).sum /
        ((t1 - t0 : Nat) : ℚ))

/-- C8: the default error metric is the sum of squared residuals over the
region at or after `t0` (step function) or between `t0` and `t1` (rectangle
function), divided by the length of that region (`t_max − t0`, resp.
`t1 − t0`); in both families it is the missing value exactly when that
region has zero length, and is never an exception (both definitions are
total). -/
theorem error_metric_mean_or_missing (s : CSeries) (t0 : Month) (c0 : ℚ) (t1 : Month) :
    (errorMetric s t0 c0 = none ↔ tMax s ≤ t0) ∧
    (∀ e, errorMetric s t0 c0 = some e →
      e = ((s.filter fun p => decide (t0 ≤ p.1)).map
            fun p => (stepF t0 c0 p.1 - p.2) ^ 2).sum / ((tMax s - t0 : Nat) : ℚ)) ∧
    (errorMetricRect s t0 c0 t1 = none ↔ t1 ≤ t0) ∧
    ∀ e, errorMetricRect s t0 c0 t1 = some e →
      e = ((s.filter fun p => decide (t0 ≤ p.1 ∧ p.1 ≤ t1)).map
            fun p => (rectF t0 c0 t1 p.1 - p.2) ^ 2).sum / ((t1 - t0 : Nat) : ℚ) := by
  refine ⟨?_, ?_, ?_, ?_⟩
  · unfold errorMetric
    by_cases h : tMax s ≤ t0
    · rw [if_pos h]
      exact ⟨fun _ => h, fun _ => rfl⟩
    · rw [if_neg h]
      exact ⟨fun hc => Option.noConfusion hc, fun hc => absurd hc h⟩
  · unfold errorMetric
    by_cases h : tMax s ≤ t0
    · rw [if_pos h]
      exact fun e he => Option.noConfusion he
    · rw [if_neg h]
      intro e he
      exact (Option.some_inj.mp he).symm
  · unfold errorMetricRect
    by_cases h : t1 ≤ t0
    · rw [if_pos h]
      exact ⟨fun _ => h, fun _ => rfl⟩
    · rw [if_neg h]
      exact ⟨fun hc => Option.noConfusion hc, fun hc => absurd hc h⟩
  · unfold errorMetricRect
    by_cases h : t1 ≤ t0
    · rw [if_pos h]
      exact fun e he => Option.noConfusion he
    · rw [if_neg h]
      intro e he
      exact (Option.some_inj.mp he).symm

/-- C8 witness: on the concrete series `[(0, 0), (1, 1)]`, the missing-value
case of the step metric at `t0 = t_max = 1` and of the rectangle metric at
`t1 = t0 = 1`, and the quotient case of both metrics over the full region
`t0 = 0` (resp. `[t0, t1] = [0, 1]`). -/
theorem error_metric_mean_or_missing_witness :
    errorMetric [(0, 0), (1, 1)] 1 (1 : ℚ) = none ∧
    ((1 : ℚ) = ((([(0, 0), (1, 1)] : CSeries).filter fun p => decide (0 ≤ p.1)).map
        fun p => (stepF 0 1 p.1 - p.2) ^ 2).sum /
      ((tMax [(0, 0), (1, 1)] - 0 : Nat) : ℚ)) ∧
    errorMetricRect [(0, 0), (1, 1)] 1 (1 : ℚ) 1 = none ∧
    (1 : ℚ) = ((([(0, 0), (1, 1)] : CSeries).filter
          fun p => decide (0 ≤ p.1 ∧ p.1 ≤ 1)).map
        fun p => (rectF 0 1 1 p.1 - p.2) ^ 2).sum / ((1 - 0 : Nat) : ℚ) :=
  ⟨(error_metric_mean_or_missing [(0, 0), (1, 1)] 1 1 2).1.mpr (by decide),
   (error_metric_mean_or_missing [(0, 0), (1, 1)] 0 1 2).2.1 1
    (by norm_num [errorMetric, tMax, months, stepF, List.filter]),
   (error_metric_mean_or_missing [(0, 0), (1, 1)] 1 1 1).2.2.1.mpr (by decide),
   (error_metric_mean_or_missing [(0, 0), (1, 1)] 0 1 1).2.2.2 1
    (by norm_num [errorMetricRect, rectF, List.filter])⟩

/-! ### Hierarchical care-site filtering -/

/-- A care-site reference row: identifier, short name and parent identifier
(`none` at a root of the forest). -/
structure CareSite where
  id : Nat
  shortName : String
  parent : Option Nat
deriving DecidableEq, Repr

/-- Identifiers of the care sites whose short name belongs to the selection. -/
def matchedIds (tbl : List CareSite) (names : List String) : List Nat :=
  (tbl.filter fun e => decide (e.shortName ∈ names)).map CareSite.id

/-- Parent identifier of a care site, resolved through the reference table. -/
def parentOf (tbl : List CareSite) (i : Nat) : Option Nat :=
  (tbl.find? fun e => e.id == i).bind CareSite.parent

/-- Ancestors obtained by walking the parent links upward, with fuel bounded
by the table size. -/
def ancestorsFuel (tbl : List CareSite) : Nat → Nat → List Nat
  | 0, _ => []
  | fuel + 1, i =>
    match parentOf tbl i with
    | none => []
    | some p => p :: ancestorsFuel tbl fuel p

/-- All ancestors of a care site up to its root. -/
def ancestorsOf (tbl : List CareSite) (i : Nat) : List Nat :=
  ancestorsFuel tbl tbl.length i

/-- Direct children of a care site. -/
def childrenOf (tbl : List CareSite) (i : Nat) : List Nat :=
  (tbl.filter fun e => e.parent == some i).map CareSite.id

/-- Breadth-first descent through the hierarchy, with fuel bounded by the
table size. -/
def descendantsFuel (tbl : List CareSite) : Nat → List Nat → List Nat
  | 0, _ => []
  | fuel + 1, frontier =>
    let next := frontier.flatMap (childrenOf tbl)
    next ++ descendantsFuel tbl fuel next

/-- All descendants of a care site down to the leaves. -/
def descendantsOf (tbl : List CareSite) (i : Nat) : List Nat :=
  descendantsFuel tbl tbl.length [i]

/-- The closure retained by `filter_care_site`: the selected care sites, all
of their ancestors up to the root and all of their descendants down to the
leaves. -/
def closureIds (tbl : List CareSite) (names : List String) : List Nat :=
  matchedIds tbl names ++
    (matchedIds tbl names).flatMap (ancestorsOf tbl) ++
    (matchedIds tbl names).flatMap (descendantsOf tbl)

/-- A predictor row, reduced to the attributes relevant to care-site
filtering: the care-site identifier, the month and the completeness value. -/
structure PredRow where
  careSiteId : Nat
  month : Month
  c : ℚ
deriving DecidableEq, Repr

/-- Modelled from the spec: `BaseProbe.filter_care_site` narrows the
predictor to the rows of the selected care sites "including upper and lower
levels care sites" (probe documentation); the implementation file is absent
from the snapshot. -/
def filterCareSite (tbl : List CareSite) (names : List String)
    (pred : List PredRow) : List PredRow :=
  pred.filter fun r => decide (r.careSiteId ∈ closureIds tbl names)

/-- C5: `filter_care_site` keeps exactly the closure of the selection: a row
survives iff it was present and its care site either matches a selected
short name, or is an ancestor of a matched care site, or is a descendant of
a matched care site; rows of unrelated subtrees are removed. -/
theorem filter_care_site_closure (tbl : List CareSite) (names : List String)
    (pred : List PredRow) (r : PredRow) :
    r ∈ filterCareSite tbl names pred ↔
      r ∈ pred ∧
        (r.careSiteId ∈ matchedIds tbl names ∨
          (∃ m ∈ matchedIds tbl names, r.careSiteId ∈ ancestorsOf tbl m) ∨
          ∃ m ∈ matchedIds tbl names, r.careSiteId ∈ descendantsOf tbl m) := by
  unfold filterCareSite closureIds
  rw [List.mem_filter]
  simp only [decide_eq_true_eq, List.mem_append, List.mem_flatMap]
  aesop

/-- C6: a selected short name that does not exist in the care-site table is
silently ignored — the filtered predictor is unchanged by adding it — and a
call in which none of the supplied names exist returns the empty predictor
(full exclusion) rather than failing. -/
theorem unknown_name_excluded (tbl : List CareSite) (pred : List PredRow) :
    (∀ (names : List String) (nm : String),
      (∀ e ∈ tbl, e.shortName ≠ nm) →
        filterCareSite tbl (nm :: names) pred = filterCareSite tbl names pred) ∧
    ∀ names : List String,
      (∀ nm ∈ names, ∀ e ∈ tbl, e.shortName ≠ nm) →
        filterCareSite tbl names pred = [] := by
  constructor
  · intro names nm hnm
    have hmatch : matchedIds tbl (nm :: names) = matchedIds tbl names := by
      unfold matchedIds
      congr 1
      apply List.filter_congr
      intro e he
      simp only [decide_eq_decide, List.mem_cons]
      constructor
      · rintro (h | h)
        · exact absurd h (hnm e he)
        · exact h
      · exact Or.inr
    unfold filterCareSite closureIds
    rw [hmatch]
  · intro names hall
    have hmatch : matchedIds tbl names = [] := by
      unfold matchedIds
      rw [List.map_eq_nil_iff]
      rw [List.filter_eq_nil_iff]
      intro e he
      simp only [decide_eq_true_eq]
      intro hmem
      exact hall e.shortName hmem e he rfl
    unfold filterCareSite closureIds
    rw [hmatch]
    simp

/-- C6 witness: filtering with the unknown name "Clinic-9" on a two-site
table leaves the result unchanged, and filtering with only unknown names
empties the predictor. -/
theorem unknown_name_excluded_witness :
    filterCareSite [⟨1, "Hospital-1", none⟩, ⟨2, "Pole-A", some 1⟩]
        ["Clinic-9", "Hospital-1"] [⟨1, 0, 1⟩, ⟨2, 0, 1⟩] =
      filterCareSite [⟨1, "Hospital-1", none⟩, ⟨2, "Pole-A", some 1⟩]
        ["Hospital-1"] [⟨1, 0, 1⟩, ⟨2, 0, 1⟩] ∧
    filterCareSite [⟨1, "Hospital-1", none⟩, ⟨2, "Pole-A", some 1⟩]
        ["Clinic-9"] [⟨1, 0, 1⟩, ⟨2, 0, 1⟩] = [] :=
  ⟨(unknown_name_excluded [⟨1, "Hospital-1", none⟩, ⟨2, "Pole-A", some 1⟩]
      [⟨1, 0, 1⟩, ⟨2, 0, 1⟩]).1 ["Hospital-1"] "Clinic-9" (by decide),
   (unknown_name_excluded [⟨1, "Hospital-1", none⟩, ⟨2, "Pole-A", some 1⟩]
      [⟨1, 0, 1⟩, ⟨2, 0, 1⟩]).2 ["Clinic-9"] (by decide)⟩

/-! ### Model state machine: fit before predict -/

/-- One row of the `estimates` table of a fitted step-function model: the
non-time key and the fitted coefficients. -/
structure EstRow where
  key : Nat
  t0 : Month
  c0 : ℚ
deriving DecidableEq, Repr

/-- A model: `estimates` is `none` before any `fit` and holds the estimates
table afterwards. -/
structure ModelState where
  estimates : Option (List EstRow)
deriving DecidableEq, Repr

/-- A freshly constructed, unfitted model. -/
def initModel : ModelState := ⟨none⟩

/-- The error raised by `predict` on an unfitted model, distinct by
construction from any data-shaped outcome (which is an `ok` table, possibly
empty). -/
inductive ModelErr where
  | notFitted
deriving DecidableEq, Repr

/-- Modelled from the spec: `BaseModel.fit` computes the estimates per key
with `fit_process` (here: step-function loss minimization per keyed series)
and replaces `estimates` entirely; the implementation file is absent from
the snapshot. -/
def fitModel (probe : List (Nat × CSeries)) : ModelState :=
  ⟨some (probe.map fun g => ⟨g.1, (stepFitLoss g.2).1, (stepFitLoss g.2).2⟩)⟩

/-- Modelled from the spec: `BaseModel.predict` must be called on a fitted
model (model documentation warning); on a fitted model it reconstructs the
estimated completeness at each month of the given probe for the keys present
in the estimates, keys absent from the estimates yielding no row. -/
def predictModel (m : ModelState) (probe : List (Nat × Month)) :
    Except ModelErr (List (Nat × Month × ℚ)) :=
  match m.estimates with
  | none => .error .notFitted
  | some est =>
    .ok (probe.filterMap fun r =>
      (est.find? fun e => e.key == r.1).map fun e => (r.1, r.2, stepF e.t0 e.c0 r.2))

/-- C7: `predict` on a never-fitted model fails immediately with the
dedicated not-fitted error, while after any `fit` call `predict` succeeds
(returns an `ok` table) on every input probe, and — being a pure function of
the fitted state — does so identically on repeated calls. -/
theorem predict_requires_fit :
    (∀ probe : List (Nat × Month), predictModel initModel probe = .error .notFitted) ∧
    ∀ (fitProbe : List (Nat × CSeries)) (probe : List (Nat × Month)),
      (predictModel (fitModel fitProbe) probe).isOk = true := by
  constructor
  · intro probe
    rfl
  · intro fitProbe probe
    rfl

/-! ### Biology probe care-site levels -/

/-- Care-site hierarchy levels appearing in predictors. -/
inductive CareSiteLevel where
  | hospital
  | pole
  | uf
  | uc
  | uh
deriving DecidableEq, Repr

/-- Modelled from the spec: the hierarchy levels at which the v0.2.8 biology
completeness predictors emit observations.  The implementation files are
absent from the snapshot; the probe documentation warns "Laboratory data are
only available at hospital level", while changelog v0.2.8 — the version of
the snapshot — records "Add UF, UH, UC care sites in biology probes".  The
changelog describes the shipped code, so the level list is Hospital, UF, UC
and UH (and still not Pole). -/
def biologyCareSiteLevels : List CareSiteLevel :=
  [.hospital, .uf, .uc, .uh]

/-- One biology predictor row: the care-site level of the entity, the month
and the completeness value. -/
structure BioRow where
  level : CareSiteLevel
  month : Month
  c : ℚ
deriving DecidableEq, Repr

/-- Modelled from the spec: `BiologyProbe.compute` under
`per_measurement_default`, reduced to the care-site-level dimension — each
(level, monthly measurement counts) group whose level the probe aggregates
contributes its per-entity-normalized monthly completeness. -/
def biologyCompute (groups : List (CareSiteLevel × CountSeries)) : List BioRow :=
  (groups.filter fun g => decide (g.1 ∈ biologyCareSiteLevels)).flatMap
    fun g => (completenessPerEntity g.2).map fun p => ⟨g.1, p.1, p.2⟩

/-- C10 counterexample: computing the biology probe on a group observed at
UF level emits a UF-level row, so laboratory completeness observations are
not restricted to the hospital level. -/
theorem biology_emits_uf_row :
    biologyCompute [(.uf, [(0, 5)])] = [⟨.uf, 0, 1⟩] ∧
    CareSiteLevel.uf ≠ CareSiteLevel.hospital := by
  constructor
  · norm_num [biologyCompute, biologyCareSiteLevels, completenessPerEntity, nMax]
  · exact fun h => CareSiteLevel.noConfusion h

/-- C10 (amended): every row the biology probe computes is at one of the
levels Hospital, UF, UC or UH (the v0.2.8 level set) — in particular never
at Pole level. -/
theorem biology_levels_subset (groups : List (CareSiteLevel × CountSeries)) :
    ∀ r ∈ biologyCompute groups,
      r.level ∈ biologyCareSiteLevels ∧ r.level ≠ CareSiteLevel.pole := by
  intro r hr
  unfold biologyCompute at hr
  rcases List.mem_flatMap.mp hr with ⟨g, hg, hrg⟩
  have hgf := List.mem_filter.mp hg
  have hlev : g.1 ∈ biologyCareSiteLevels := by simpa using hgf.2
  rcases List.mem_map.mp hrg with ⟨p, _, rfl⟩
  refine ⟨hlev, ?_⟩
  intro hpole
  have hl : g.1 = CareSiteLevel.pole := hpole
  rw [hl] at hlev
  simp [biologyCareSiteLevels] at hlev

/-- C10 witness: the amended level bound evaluated on the concrete UF-level
row produced above. -/
theorem biology_levels_subset_witness :
    (⟨.uf, 0, 1⟩ : BioRow).level ∈ biologyCareSiteLevels ∧
      (⟨.uf, 0, 1⟩ : BioRow).level ≠ CareSiteLevel.pole :=
  biology_levels_subset [(.uf, [(0, 5)])] ⟨.uf, 0, 1⟩
    (by norm_num [biologyCompute, biologyCareSiteLevels, completenessPerEntity,
      nMax, List.mem_cons])

end Edsteva
